import Mathlib

/-!
Verification of the work-partitioning and spatial-filtering core of the
engine: `WeightedSequence`, `block_splitter`, `split_in_slices` from
`openquake/baselib/general.py`, the `AccumDict` accumulator from the same
module, and the `SourceFilter` from `openquake/hazardlib/calc/filters.py`.

Python numbers (weights, distances, coordinates) are modelled by an
arbitrary linearly ordered commutative ring `W`, so every theorem holds
for integers and rationals alike; concrete witnesses instantiate `W` at
`ℤ`. Python lists holding mutable state are cells of an explicit store,
and raising code returns `Except`.
-/

deriving instance DecidableEq for Except

/-! ### WeightedSequence (openquake/baselib/general.py, lines 81-167) -/

/-- A wrapper over a sequence of weighted items with a total weight
attribute (`general.py` line 81): items are kept in `seq` (the `_seq`
list) and the running total in `weight`. -/
structure WeightedSequence (α W : Type) where
  seq : List α
  weight : W
deriving DecidableEq

namespace WeightedSequence

variable {α W : Type} [LinearOrderedCommRing W]

/-- The `__init__` state before `extend` runs: `_seq = []`, `weight = 0`. -/
def empty (α W : Type) [LinearOrderedCommRing W] : WeightedSequence α W := ⟨[], 0⟩

/-- `insert(i, (item, weight))`: put the item at position `i` and add the
weight to the total (`general.py` lines 142-148). -/
def insertAt (ws : WeightedSequence α W) (i : Nat) (p : α × W) : WeightedSequence α W :=
  ⟨ws.seq.insertIdx i p.1, ws.weight + p.2⟩

/-- `append` as inherited from `MutableSequence`: `insert(len(self), v)`. -/
def push (ws : WeightedSequence α W) (p : α × W) : WeightedSequence α W :=
  ⟨ws.seq ++ [p.1], ws.weight + p.2⟩

/-- `extend` as inherited from `MutableSequence`: append each pair in turn. -/
def extendPairs (ws : WeightedSequence α W) (ps : List (α × W)) : WeightedSequence α W :=
  ps.foldl push ws

/-- `WeightedSequence(seq)` (`general.py` lines 99-105): start empty and
extend with the given `(item, weight)` pairs. -/
def ofPairs (ps : List (α × W)) : WeightedSequence α W :=
  extendPairs (empty α W) ps

/-- `__add__` (`general.py` lines 131-140): concatenate the item lists and
sum the weights. -/
def addWS (a b : WeightedSequence α W) : WeightedSequence α W :=
  ⟨a.seq ++ b.seq, a.weight + b.weight⟩

/-- `__setitem__` (`general.py` lines 113-117): overwrite the item at the
given index; the weight attribute is not touched. -/
def setItem (ws : WeightedSequence α W) (i : Nat) (v : α) : WeightedSequence α W :=
  ⟨ws.seq.set i v, ws.weight⟩

/-- `__delitem__` (`general.py` lines 119-123): remove the item at the
given index; the weight attribute is not touched. -/
def delItem (ws : WeightedSequence α W) (i : Nat) : WeightedSequence α W :=
  ⟨ws.seq.eraseIdx i, ws.weight⟩

/-- `__eq__` (`general.py` lines 156-160): `all(x == y for x, y in
zip(self, other))` - the zip stops at the shorter sequence. -/
def wsEq [DecidableEq α] (a b : WeightedSequence α W) : Bool :=
  (a.seq.zip b.seq).all fun p => decide (p.1 = p.2)

end WeightedSequence

/-! ### block_splitter (openquake/baselib/general.py, lines 198-241) -/

/-- The loop of `block_splitter`: the running chunk `ws` and the previous
key `prev` are threaded through the items; a negative weight raises
`ValueError`; a new chunk is started when the running weight would exceed
`maxW` or the key changes; zero-weight items are otherwise dropped.
The generator is modelled as the list of the yielded chunks. -/
def bsGo {α κ W : Type} [LinearOrderedCommRing W] (maxW : W)
    (weight : α → W) (key : α → κ) [DecidableEq κ] :
    List α → WeightedSequence α W → κ → Except String (List (WeightedSequence α W))
  | [], ws, _ => if ws.seq.isEmpty then .ok [] else .ok [ws]
  | item :: rest, ws, prev =>
    if weight item < 0 then
      .error "negative weight"
    else if maxW < ws.weight + weight item ∨ key item ≠ prev then
      match bsGo maxW weight key rest
          (WeightedSequence.ofPairs [(item, weight item)]) (key item) with
      | .ok out => if ws.seq.isEmpty then .ok out else .ok (ws :: out)
      | .error e => .error e
    else if 0 < weight item then
      bsGo maxW weight key rest (ws.push (item, weight item)) (key item)
    else
      bsGo maxW weight key rest ws (key item)

/-- `block_splitter(items, max_weight, weight, key)` (`general.py` lines
198-241): `max_weight <= 0` raises `ValueError` up front; `k₀` is the
initial `prev_key` (the string `'Unspecified'` in the source, a value of
the key codomain here). -/
def block_splitter {α κ W : Type} [LinearOrderedCommRing W]
    (items : List α) (maxW : W) (weight : α → W)
    (key : α → κ) [DecidableEq κ] (k₀ : κ) :
    Except String (List (WeightedSequence α W)) :=
  if maxW ≤ 0 then .error "max_weight"
  else bsGo maxW weight key items (WeightedSequence.empty α W) k₀

/-! ### split_in_slices (openquake/baselib/general.py, lines 244-270) -/

/-- The `while True` loop of `split_in_slices`, with an explicit fuel
argument (the loop runs at most `number` times, which the theorems below
confirm by establishing the full chain down to `number`): each step emits
`slice(start, min(start + blocksize, number))` and stops when the stop
reaches `number`. -/
def sisGo : Nat → Nat → Nat → Nat → List (Nat × Nat)
  | 0, _, _, _ => []
  | fuel + 1, n, bs, start =>
    if start + bs < n then
      (start, start + bs) :: sisGo fuel n bs (start + bs)
    else
      [(start, min (start + bs) n)]

/-- `split_in_slices(number, num_slices)` (`general.py` lines 244-270):
`blocksize = ceil(number / num_slices)`, then successive half-open ranges
starting from 0. Slices are modelled as `(start, stop)` pairs. -/
def split_in_slices (n k : Nat) : List (Nat × Nat) :=
  sisGo n n ((n + k - 1) / k) 0

/-- A list of ranges forms a contiguous chain from `s` to `t`: each range
is nonempty, starts where the previous one stopped, and the last one
stops at `t`. -/
def isChain (s t : Nat) : List (Nat × Nat) → Prop
  | [] => s = t
  | p :: rest => p.1 = s ∧ p.1 < p.2 ∧ isChain p.2 t rest

/-! ### AccumDict (openquake/baselib/general.py, lines 557-722)

Python values relevant to the AccumDict claims are integers and lists;
a list is a mutable object, modelled as a cell of an explicit store so
that aliasing and in-place mutation are visible. -/

/-- A Python value: an integer, or a reference to a list object living in
the store. -/
inductive PyVal where
  | vint : Int → PyVal
  | vref : Nat → PyVal
deriving DecidableEq

/-- The heap of list objects: cell `r` holds the list contents of the
object referred to by `PyVal.vref r`. -/
abbrev Store := List (List Int)

/-- A Python exception: its type name and its message. -/
structure PyError where
  etype : String
  msg : String
deriving DecidableEq

/-- An `AccumDict`: insertion-ordered entries plus the optional `accum`
template (`general.py` lines 626-630). -/
structure AccumDict where
  entries : List (String × PyVal)
  accum : Option PyVal
deriving DecidableEq

/-- Dictionary lookup on the insertion-ordered entry list. -/
def adLookup : List (String × PyVal) → String → Option PyVal
  | [], _ => none
  | (k', v) :: rest, k => if k = k' then some v else adLookup rest k

/-- Dictionary store `d[k] = v`: overwrite in place if the key exists,
append at the end otherwise (Python dict insertion order). -/
def adUpdate : List (String × PyVal) → String → PyVal → List (String × PyVal)
  | [], k, v => [(k, v)]
  | (k', v') :: rest, k, v =>
    if k = k' then (k, v) :: rest else (k', v') :: adUpdate rest k v

/-- `copy.deepcopy` on a value: an integer is immutable; a list reference
is copied into a fresh cell holding the same contents. -/
def deepcopy : PyVal → Store → PyVal × Store
  | .vint i, s => (.vint i, s)
  | .vref r, s => (.vref s.length, s ++ [(s.get? r).getD []])

/-- `AccumDict.__getitem__` including `__missing__` (`general.py` lines
708-713): a present key returns its value; a missing key raises
`KeyError` when no `accum` template is configured, and otherwise stores
and returns a deep copy of the template. -/
def getItemAD (s : Store) (d : AccumDict) (k : String) :
    Except PyError (PyVal × Store × AccumDict) :=
  match adLookup d.entries k with
  | some v => .ok (v, s, d)
  | none =>
    match d.accum with
    | none => .error ⟨"KeyError", k⟩
    | some a =>
      let p := deepcopy a s
      .ok (p.1, p.2, ⟨adUpdate d.entries k p.1, d.accum⟩)

/-- `AccumDict.__iadd__` with a mapping argument (`general.py` lines
632-641), the mapping given as its `items()` list: a key absent from
`self` is bound to the other side's value (sharing the reference); for a
present key, a list value is extended in place (the specialized fast
path), and otherwise `+` is applied. `list.extend` of a non-list raises
`AttributeError`; `+` between a list and an int raises `TypeError`. -/
def iaddGo : Store → AccumDict → List (String × PyVal) →
    Except PyError (Store × AccumDict)
  | s, d, [] => .ok (s, d)
  | s, d, (k, v) :: rest =>
    match adLookup d.entries k with
    | none => iaddGo s ⟨adUpdate d.entries k v, d.accum⟩ rest
    | some cur =>
      match v with
      | .vref rb =>
        match cur with
        | .vref ra =>
          match s.get? ra, s.get? rb with
          | some la, some lb => iaddGo (s.set ra (la ++ lb)) d rest
          | _, _ => .error ⟨"IndexError", "dangling reference"⟩
        | .vint _ => .error ⟨"AttributeError", "int object has no attribute extend"⟩
      | .vint i =>
        match cur with
        | .vint j => iaddGo s ⟨adUpdate d.entries k (.vint (j + i)), d.accum⟩ rest
        | .vref _ => .error ⟨"TypeError", "can only concatenate list to list"⟩

/-- `AccumDict.__add__` (`general.py` lines 647-650): `new =
self.__class__(self)` makes a shallow copy - the entry list is copied but
the values (hence the list references) are shared, and the copy's `accum`
is `None` - then `new += other` runs `__iadd__`. -/
def addAD (s : Store) (a : AccumDict) (bs : List (String × PyVal)) :
    Except PyError (Store × AccumDict) :=
  iaddGo s ⟨a.entries, none⟩ bs

/-- Subtraction of two Python values: int minus int; any combination
involving a list raises `TypeError`. -/
def pySub : PyVal → PyVal → Except PyError PyVal
  | .vint a, .vint b => .ok (.vint (a - b))
  | _, _ => .error ⟨"TypeError", "unsupported operand types for -"⟩

/-- `AccumDict.__isub__` with a mapping argument (`general.py` lines
654-660): for each pair `(k, v)` of the other side, try `self[k] =
self[k] - v`; the `self[k]` read goes through `__missing__`, and a
`KeyError` from it is caught and answered by `self[k] = v` (the raw
value). -/
def isubGo : Store → AccumDict → List (String × PyVal) →
    Except PyError (Store × AccumDict)
  | s, d, [] => .ok (s, d)
  | s, d, (k, v) :: rest =>
    match getItemAD s d k with
    | .error e =>
      if e.etype = "KeyError" then
        isubGo s ⟨adUpdate d.entries k v, d.accum⟩ rest
      else .error e
    | .ok (x, s₁, d₁) =>
      match pySub x v with
      | .error e => .error e
      | .ok w => isubGo s₁ ⟨adUpdate d₁.entries k w, d₁.accum⟩ rest

/-- `AccumDict.__sub__` (`general.py` lines 666-669): shallow copy with
`accum = None`, then `__isub__`. -/
def subAD (s : Store) (a : AccumDict) (bs : List (String × PyVal)) :
    Except PyError (Store × AccumDict) :=
  isubGo s ⟨a.entries, none⟩ bs

/-- `list.extend` on a store cell: `xs` is appended in place to the list
object in cell `r`. -/
def extendCell (s : Store) (r : Nat) (xs : List Int) : Store :=
  s.set r (((s.get? r).getD []) ++ xs)

/-! ### SourceFilter (openquake/hazardlib/calc/filters.py) -/

/-- A geographic bounding box `(min_lon, min_lat, max_lon, max_lat)`. -/
structure BBox (W : Type) where
  minLon : W
  minLat : W
  maxLon : W
  maxLat : W
deriving DecidableEq

/-- The message prefix built by `context` (`filters.py` lines 75-92):
`'An error occurred with source id=%s. Error: %s'`. -/
def enrich (srcId : String) (msg : String) : String :=
  "An error occurred with source id=" ++ srcId ++ ". Error: " ++ msg

/-- The `context(src)` manager (`filters.py` lines 75-92): a computation
that raises has its message enriched with the source id while the
exception type is preserved (`raise_(etype, msg, tb)`). -/
def contextRun {α : Type} (srcId : String) : Except PyError α → Except PyError α
  | .ok a => .ok a
  | .error e => .error ⟨e.etype, enrich srcId e.msg⟩

/-- A seismic source as seen by `SourceFilter`: its id, its tectonic
region type, its enlarged bounding box (`get_bounding_box(maxdist)`), its
`get_min_max_mag` result and its `filter_sites_by_distance_to_source`
behaviour; the latter three live outside `src/` and are therefore
supplied as data. A returned `none` from `filterSites` is the `None`
meaning "no site close enough". Either method may raise. -/
structure SourceM (W : Type) where
  source_id : String
  trt : String
  boundingBox : W → BBox W
  minMaxMag : Except PyError (W × W)
  filterSites : W → List Nat → Except PyError (Option (List Nat))

/-- The state of a `SourceFilter` (`filters.py` lines 150-163): the `idl`
flag from `fix_lons_idl`, the `use_rtree` flag, the truthiness of
`integration_distance`, the scalar-or-dict lookups
`integration_distance[trt]` and `integration_distance(trt, mag)`, and the
rtree index query on a real box. -/
structure SFModel (W : Type) where
  idl : Bool
  useRtree : Bool
  hasDist : Bool
  distFor : String → W
  distAt : String → W → W
  indexQuery : BBox W → List Nat

/-- `SourceFilter.get_affected_box` (`filters.py` lines 165-187): enlarge
via `get_bounding_box`, then, when `idl` is set, the four strict sign
cases on `(min_lon, max_lon)`; falling through every case returns `None`
(modelled as `none`). -/
def getAffectedBox {W : Type} [LinearOrderedCommRing W]
    (f : SFModel W) (src : SourceM W) : Option (BBox W) :=
  let b := src.boundingBox (f.distFor src.trt)
  if f.idl then
    if b.minLon < 0 ∧ 0 < b.maxLon then
      some ⟨b.maxLon, b.minLat, b.minLon + 360, b.maxLat⟩
    else if b.minLon < 0 ∧ b.maxLon < 0 then
      some ⟨b.minLon + 360, b.minLat, b.maxLon + 360, b.maxLat⟩
    else if 0 < b.minLon ∧ 0 < b.maxLon then
      some b
    else if 0 < b.minLon ∧ b.maxLon < 0 then
      some ⟨b.maxLon + 360, b.minLat, b.minLon, b.maxLat⟩
    else
      none
  else
    some b

/-- `self.index.intersection(box)` as called in `__call__`: a real box is
answered by the index; passing `None` (the fall-through of
`get_affected_box`) raises a `TypeError` inside the rtree library. -/
def indexIntersection {W : Type} (f : SFModel W) :
    Option (BBox W) → Except PyError (List Nat)
  | none => .error ⟨"TypeError", "object of type NoneType has no coordinates"⟩
  | some b => .ok (f.indexQuery b)

/-- The per-source body of `SourceFilter.__call__` (`filters.py` lines
213-231): rtree mode queries the index on the affected box and yields
the source when any site id intersects; without an integration distance
the source is yielded unfiltered; otherwise the distance mode computes
`max_mag`, the threshold, and runs `filter_sites_by_distance_to_source`
inside `context(src)` - only that call is wrapped. The yield (or the
drop) for one source is `Option` of the surviving site ids. -/
def callStep {W : Type} [LinearOrderedCommRing W]
    (f : SFModel W) (src : SourceM W) (sites : List Nat) :
    Except PyError (Option (List Nat)) :=
  if f.useRtree then
    match indexIntersection f (getAffectedBox f src) with
    | .error e => .error e
    | .ok sids => if sids.isEmpty then .ok none else .ok (some sids)
  else if ¬ f.hasDist then
    .ok (some sites)
  else
    match src.minMaxMag with
    | .error e => .error e
    | .ok mm =>
      match contextRun src.source_id (src.filterSites (f.distAt src.trt mm.2) sites) with
      | .error e => .error e
      | .ok (some ss) => .ok (some ss)
      | .ok none => .ok none

/-! ### Index / no-index equivalence (claim C2)

The geometric primitives (`get_bounding_box`, the site mesh and
`filter_sites_by_distance_to_source`) are not part of `src/`; the two
filtering modes are modelled from the spec. -/

/-- Modelled from the spec: step 1 of §4.5 enlarges "the candidate's
native bounding box by its per-classification threshold distance"
(`get_bounding_box(maxdist)` is not in `src/`). -/
def enlargedBox {W : Type} [LinearOrderedCommRing W] (b : BBox W) (d : W) : BBox W :=
  ⟨b.minLon - d, b.minLat - d, b.maxLon + d, b.maxLat + d⟩

/-- Membership of a reference point in a bounding box, the containment
test performed by the spatial index on degenerate site boxes. -/
def inBox {W : Type} [LinearOrderedCommRing W] (b : BBox W) (p : W × W) : Bool :=
  decide (b.minLon ≤ p.1) && decide (p.1 ≤ b.maxLon) &&
    decide (b.minLat ≤ p.2) && decide (p.2 ≤ b.maxLat)

/-- Modelled from the spec: "the true per-item distance metric between
candidate and every reference point" (§4.5 step 3), with the candidate
extended over its native bounding box; the squared planar distance from
the box to the point avoids square roots. -/
def rectDistSq {W : Type} [LinearOrderedCommRing W] (b : BBox W) (p : W × W) : W :=
  let dx := max 0 (max (b.minLon - p.1) (p.1 - b.maxLon))
  let dy := max 0 (max (b.minLat - p.2) (p.2 - b.maxLat))
  dx * dx + dy * dy

/-- Modelled from the spec: indexed mode keeps a candidate exactly when
its enlarged bounding box contains at least one reference point (§4.5
step 2; `rtree` and the site collection are not in `src/`). -/
def survivesIndexed {W : Type} [LinearOrderedCommRing W]
    (srcBox : BBox W) (d : W) (sites : List (W × W)) : Bool :=
  sites.any (inBox (enlargedBox srcBox d))

/-- Modelled from the spec: unindexed distance mode keeps a candidate
exactly when at least one reference point is within the threshold
distance (§4.5 step 3; `filter_sites_by_distance_to_source` is not in
`src/`). -/
def survivesDistance {W : Type} [LinearOrderedCommRing W]
    (srcBox : BBox W) (d : W) (sites : List (W × W)) : Bool :=
  sites.any fun p => decide (rectDistSq srcBox p ≤ d * d)

/-! ### Derived notions used by the theorems -/

/-- A finite program over the weight-tracking public operations of
`WeightedSequence`: construction from pairs, `append`, `insert` and `+`.
Slice write and slice delete are the two public operations left out
(claim C3 shows they break the weight invariant). -/
inductive WSBuild (α W : Type) where
  | fromPairs : List (α × W) → WSBuild α W
  | pushed : WSBuild α W → α × W → WSBuild α W
  | inserted : WSBuild α W → Nat → α × W → WSBuild α W
  | summed : WSBuild α W → WSBuild α W → WSBuild α W

/-- Run a `WSBuild` program to the `WeightedSequence` it constructs. -/
def WSBuild.run {α W : Type} [LinearOrderedCommRing W] : WSBuild α W → WeightedSequence α W
  | .fromPairs ps => WeightedSequence.ofPairs ps
  | .pushed b p => b.run.push p
  | .inserted b i p => b.run.insertAt i p
  | .summed b c => b.run.addWS c.run

/-- The sum of the weights of all items inserted by a `WSBuild` program;
no operation of the program removes an item, so this is the sum of the
weights of the contained items. -/
def WSBuild.total {α W : Type} [LinearOrderedCommRing W] : WSBuild α W → W
  | .fromPairs ps => (ps.map Prod.snd).sum
  | .pushed b p => b.total + p.2
  | .inserted b i p => b.total + p.2
  | .summed b c => b.total + c.total

/-- The pointwise content of `AccumDict` subtraction at one key: a key
present in both sides subtracts, a key present only on the left keeps its
value, a key present only on the right is inserted verbatim, and a key in
neither stays absent. -/
def MergeSpec (aEnt bs dEnt : List (String × PyVal)) (k : String) : Prop :=
  (∀ x y, adLookup aEnt k = some x → adLookup bs k = some y →
    ∃ w, pySub x y = .ok w ∧ adLookup dEnt k = some w) ∧
  (∀ x, adLookup aEnt k = some x → adLookup bs k = none →
    adLookup dEnt k = some x) ∧
  (∀ y, adLookup aEnt k = none → adLookup bs k = some y →
    adLookup dEnt k = some y) ∧
  (adLookup aEnt k = none → adLookup bs k = none → adLookup dEnt k = none)

/-- A chunk is within bounds, or is an overweight singleton: the shape
claim C1 asserts for every chunk of `block_splitter`. -/
def chunkGood {α W : Type} [LinearOrderedCommRing W]
    (maxW : W) (weight : α → W) (c : WeightedSequence α W) : Prop :=
  c.weight = (c.seq.map weight).sum ∧
    (c.weight ≤ maxW ∨ ∃ x, c.seq = [x] ∧ c.weight = weight x ∧ maxW < weight x)

/-- A concrete `SourceFilter` state: rtree mode with the `idl` flag set,
an empty index and a unit integration-distance policy. -/
def exFilter : SFModel ℤ := ⟨true, true, true, fun _ => 0, fun _ _ => 0, fun _ => []⟩

/-- A concrete source whose enlarged bounding box has `min_lon = 0`
exactly. -/
def exSource : SourceM ℤ :=
  ⟨"42", "trt", fun _ => ⟨0, -1, 1, 1⟩, .ok (5, 6), fun _ _ => .ok none⟩

/-- A concrete `SourceFilter` state in unindexed distance mode. -/
def exFilterDist : SFModel ℤ :=
  ⟨false, false, true, fun _ => 0, fun _ _ => 10, fun _ => []⟩

/-- A concrete source whose distance filtering raises a `ValueError`. -/
def exSourceFail : SourceM ℤ :=
  ⟨"7", "trt", fun _ => ⟨1, 1, 2, 2⟩, .ok (4, 8),
    fun _ _ => .error ⟨"ValueError", "bad geometry"⟩⟩

/-! ## Theorems -/

section WSTheorems

variable {α κ W : Type} [LinearOrderedCommRing W]

/-- Extending a weighted sequence adds the extension's weights to the
total. -/
theorem extendPairs_weight (ps : List (α × W)) :
    ∀ ws : WeightedSequence α W,
      (ws.extendPairs ps).weight = ws.weight + (ps.map Prod.snd).sum := by
  induction ps with
  | nil => intro ws; simp [WeightedSequence.extendPairs]
  | cons p ps ih =>
    intro ws
    simpa [WeightedSequence.extendPairs, WeightedSequence.push, add_assoc]
      using ih (ws.push p)

/-- A sequence constructed from pairs weighs the sum of the pair weights. -/
theorem ofPairs_weight (ps : List (α × W)) :
    (WeightedSequence.ofPairs ps).weight = (ps.map Prod.snd).sum := by
  simpa [WeightedSequence.ofPairs, WeightedSequence.empty]
    using extendPairs_weight ps (WeightedSequence.empty α W)

/-- The running chunk of the `block_splitter` loop keeps `chunkGood`, and
so does every emitted chunk. -/
theorem bsGo_good (maxW : W) (weight : α → W) (key : α → κ) [DecidableEq κ] :
    ∀ (items : List α) (ws : WeightedSequence α W) (prev : κ)
      (chunks : List (WeightedSequence α W)),
      chunkGood maxW weight ws →
      bsGo maxW weight key items ws prev = .ok chunks →
      ∀ c ∈ chunks, chunkGood maxW weight c := by
  intro items
  induction items with
  | nil =>
    intro ws prev chunks hws h c hc
    by_cases he : ws.seq.isEmpty <;> simp [bsGo, he] at h <;> subst h
    · simp at hc
    · simp at hc; subst hc; exact hws
  | cons item rest ih =>
    intro ws prev chunks hws h c hc
    by_cases h1 : weight item < 0
    · simp [bsGo, h1] at h
    by_cases h2 : maxW < ws.weight + weight item ∨ key item ≠ prev
    · rw [bsGo, if_neg h1, if_pos h2] at h
      have hnew : chunkGood maxW weight
          (WeightedSequence.ofPairs [(item, weight item)]) := by
        constructor
        · simp [WeightedSequence.ofPairs, WeightedSequence.extendPairs,
            WeightedSequence.push, WeightedSequence.empty]
        · rcases le_or_lt (weight item) maxW with hle | hgt
          · left
            simpa [WeightedSequence.ofPairs, WeightedSequence.extendPairs,
              WeightedSequence.push, WeightedSequence.empty] using hle
          · right
            exact ⟨item, by simp [WeightedSequence.ofPairs,
              WeightedSequence.extendPairs, WeightedSequence.push,
              WeightedSequence.empty], by simp [WeightedSequence.ofPairs,
              WeightedSequence.extendPairs, WeightedSequence.push,
              WeightedSequence.empty], hgt⟩
      cases hrec : bsGo maxW weight key rest
          (WeightedSequence.ofPairs [(item, weight item)]) (key item) with
      | error e => rw [hrec] at h; exact absurd h (by simp)
      | ok out =>
        rw [hrec] at h
        dsimp only at h
        by_cases he : ws.seq.isEmpty
        · rw [if_pos he] at h
          injection h with h; subst h
          exact ih _ _ _ hnew hrec c hc
        · rw [if_neg he] at h
          injection h with h; subst h
          rcases List.mem_cons.1 hc with rfl | hc
          · exact hws
          · exact ih _ _ _ hnew hrec c hc
    · rw [bsGo, if_neg h1, if_neg h2] at h
      have hle : ws.weight + weight item ≤ maxW := by
        push_neg at h2; exact h2.1
      by_cases h3 : 0 < weight item
      · rw [if_pos h3] at h
        have hpush : chunkGood maxW weight (ws.push (item, weight item)) := by
          constructor
          · simp [WeightedSequence.push, hws.1]
          · left; simpa [WeightedSequence.push] using hle
        exact ih _ _ _ hpush h c hc
      · rw [if_neg h3] at h
        exact ih _ _ _ hws h c hc

/-- Claim C1: for every finite item sequence, every `max_weight > 0` and
every nonnegative weight function, each chunk yielded by `block_splitter`
weighs the sum of its items' weights and stays within `max_weight`,
except that an item whose own weight exceeds `max_weight` forms its own
singleton chunk - and only such chunks may exceed the bound. -/
theorem block_splitter_bounded (items : List α) (maxW : W)
    (weight : α → W) (key : α → κ) [DecidableEq κ] (k₀ : κ)
    (hw : ∀ x ∈ items, 0 ≤ weight x)
    (chunks : List (WeightedSequence α W))
    (h : block_splitter items maxW weight key k₀ = .ok chunks) :
    ∀ c ∈ chunks,
      c.weight = (c.seq.map weight).sum ∧
      (c.weight ≤ maxW ∨
        ∃ x, c.seq = [x] ∧ c.weight = weight x ∧ maxW < weight x) := by
  rw [block_splitter] at h
  by_cases h0 : maxW ≤ 0
  · rw [if_pos h0] at h; exact absurd h (by simp)
  · rw [if_neg h0] at h
    have hempty : chunkGood maxW weight (WeightedSequence.empty α W) :=
      ⟨by simp [WeightedSequence.empty],
        Or.inl (by simpa [WeightedSequence.empty] using le_of_lt (lt_of_not_le h0))⟩
    exact bsGo_good maxW weight key items _ k₀ chunks hempty h

/-- Witness for C1: `block_splitter` on five unit-weight items with
`max_weight = 3` yields the chunks of the doctest, and the theorem
applies to them. -/
theorem block_splitter_bounded_witness :
    (∀ x ∈ [1, 2, 3, 4, 5], 0 ≤ (fun _ : Nat => (1 : ℤ)) x) ∧
    ∀ c ∈ [(⟨[1, 2, 3], 3⟩ : WeightedSequence Nat ℤ), ⟨[4, 5], 2⟩],
      c.weight = (c.seq.map fun _ : Nat => (1 : ℤ)).sum ∧
      (c.weight ≤ 3 ∨
        ∃ x, c.seq = [x] ∧ c.weight = (fun _ : Nat => (1 : ℤ)) x ∧
          3 < (fun _ : Nat => (1 : ℤ)) x) :=
  ⟨by decide,
    block_splitter_bounded [1, 2, 3, 4, 5] 3 (fun _ => 1) (fun _ => (0 : Nat)) 0
      (by decide) [⟨[1, 2, 3], 3⟩, ⟨[4, 5], 2⟩] (by decide)⟩

/-- Counterexample to claim C3: deleting the only item of a
`WeightedSequence` built from one pair of weight 1 leaves `weight = 1`
while no item remains, so `weight` differs from the sum (zero) of the
weights of the contained items. -/
theorem delItem_breaks_weight :
    ((WeightedSequence.ofPairs [((0 : Nat), (1 : ℤ))]).delItem 0).seq = [] ∧
    ((WeightedSequence.ofPairs [((0 : Nat), (1 : ℤ))]).delItem 0).weight ≠ 0 := by
  exact ⟨rfl, by decide⟩

/-- Claim C3 as amended: after any program of construction from pairs,
`append`, `insert` and `+` - every public operation except slice write
and slice delete, which do not maintain `weight` - the `weight` attribute
equals the sum of the weights of the inserted (hence contained) items. -/
theorem wsbuild_weight (b : WSBuild α W) : b.run.weight = b.total := by
  induction b with
  | fromPairs ps => simpa [WSBuild.run, WSBuild.total] using ofPairs_weight ps
  | pushed b p ih => simp [WSBuild.run, WSBuild.total, WeightedSequence.push, ih]
  | inserted b i p ih =>
    simp [WSBuild.run, WSBuild.total, WeightedSequence.insertAt, ih]
  | summed b c ihb ihc =>
    simp [WSBuild.run, WSBuild.total, WeightedSequence.addWS, ihb, ihc]

/-- Zipping a list with an extension of itself pairs every element with
itself. -/
theorem zip_self_append_all [DecidableEq α] (l t : List α) :
    ((l.zip (l ++ t)).all fun p => decide (p.1 = p.2)) = true := by
  induction l with
  | nil => simp
  | cons a l ih => simpa using ih

/-- Zipping an extension of a list with the list pairs every element with
itself. -/
theorem zip_append_self_all [DecidableEq α] (l t : List α) :
    (((l ++ t).zip l).all fun p => decide (p.1 = p.2)) = true := by
  induction l with
  | nil => simp
  | cons a l ih => simpa using ih

/-- Claim C9: `WeightedSequence.__eq__` compares neither lengths nor
weights - whenever the item list of one sequence is a prefix of the
other's (the empty sequence included), it returns `True`. -/
theorem wsEq_of_seq_extends [DecidableEq α] (a b : WeightedSequence α W)
    (t : List α) (h : b.seq = a.seq ++ t ∨ a.seq = b.seq ++ t) :
    WeightedSequence.wsEq a b = true := by
  rcases h with h | h
  · rw [WeightedSequence.wsEq, h]; exact zip_self_append_all a.seq t
  · rw [WeightedSequence.wsEq, h]; exact zip_append_self_all b.seq t

/-- Witness for C9: the one-item sequence of weight 1 compares equal to
the two-item sequence of weight 2 that extends it. -/
theorem wsEq_of_seq_extends_witness :
    ((⟨[1, 2], 2⟩ : WeightedSequence Nat ℤ).seq =
        (⟨[1], 1⟩ : WeightedSequence Nat ℤ).seq ++ [2] ∨
      (⟨[1], 1⟩ : WeightedSequence Nat ℤ).seq =
        (⟨[1, 2], 2⟩ : WeightedSequence Nat ℤ).seq ++ [2]) ∧
    WeightedSequence.wsEq (⟨[1], 1⟩ : WeightedSequence Nat ℤ) ⟨[1, 2], 2⟩ = true :=
  ⟨Or.inl rfl, wsEq_of_seq_extends ⟨[1], 1⟩ ⟨[1, 2], 2⟩ [2] (Or.inl rfl)⟩

end WSTheorems

section SliceTheorems

/-- The `split_in_slices` loop produces a contiguous chain of nonempty
ranges from `start` down to `n`, provided the fuel covers the range. -/
theorem sisGo_chain (n bs : Nat) (hbs : bs ≠ 0) :
    ∀ fuel start, start < n → n ≤ start + fuel * bs →
      isChain start n (sisGo fuel n bs start) := by
  intro fuel
  induction fuel with
  | zero => intro start h1 h2; omega
  | succ fuel ih =>
    intro start h1 h2
    simp only [sisGo]
    by_cases hlt : start + bs < n
    · rw [if_pos hlt]
      refine ⟨rfl, by omega, ih (start + bs) hlt ?_⟩
      have hsm : (fuel + 1) * bs = fuel * bs + bs := Nat.succ_mul fuel bs
      omega
    · rw [if_neg hlt]
      have hmin : min (start + bs) n = n := Nat.min_eq_right (by omega)
      rw [hmin]
      exact ⟨rfl, h1, rfl⟩

/-- Each emitted slice except the last consumes a full block, bounding
the number of slices. -/
theorem sisGo_len (n bs : Nat) (hbs : bs ≠ 0) :
    ∀ fuel start, start < n → n ≤ start + fuel * bs →
      (sisGo fuel n bs start).length * bs < (n - start) + bs := by
  intro fuel
  induction fuel with
  | zero => intro start h1 h2; omega
  | succ fuel ih =>
    intro start h1 h2
    simp only [sisGo]
    by_cases hlt : start + bs < n
    · rw [if_pos hlt]
      have hrec := ih (start + bs) hlt
        (by have hsm : (fuel + 1) * bs = fuel * bs + bs := Nat.succ_mul fuel bs; omega)
      simp only [List.length_cons]
      rw [Nat.succ_mul]
      omega
    · rw [if_neg hlt]
      simp only [List.length_cons, List.length_nil]
      omega

/-- The endpoints of a chain are ordered. -/
theorem isChain_le : ∀ (l : List (Nat × Nat)) (s t : Nat), isChain s t l → s ≤ t := by
  intro l
  induction l with
  | nil => intro s t h; exact Nat.le_of_eq h
  | cons q rest ih =>
    intro s t h
    obtain ⟨h1, h2, h3⟩ := h
    have := ih q.2 t h3
    omega

/-- Every member of a chain lies between its endpoints and is nonempty. -/
theorem isChain_mem_bounds :
    ∀ (l : List (Nat × Nat)) (s t : Nat), isChain s t l →
      ∀ p ∈ l, s ≤ p.1 ∧ p.1 < p.2 ∧ p.2 ≤ t := by
  intro l
  induction l with
  | nil => intro s t _ p hp; simp at hp
  | cons q rest ih =>
    intro s t h p hp
    obtain ⟨h1, h2, h3⟩ := h
    rcases List.mem_cons.1 hp with rfl | hp
    · exact ⟨Nat.le_of_eq h1.symm, h2, isChain_le rest p.2 t h3⟩
    · have := ih q.2 t h3 p hp
      omega

/-- A chain's ranges are pairwise non-overlapping (each ends before the
next begins). -/
theorem isChain_pairwise :
    ∀ (l : List (Nat × Nat)) (s t : Nat), isChain s t l →
      l.Pairwise fun p q => p.2 ≤ q.1 := by
  intro l
  induction l with
  | nil => intro s t _; exact List.Pairwise.nil
  | cons q rest ih =>
    intro s t h
    obtain ⟨h1, h2, h3⟩ := h
    exact List.Pairwise.cons (fun p hp => (isChain_mem_bounds rest q.2 t h3 p hp).1)
      (ih q.2 t h3)

/-- A chain covers exactly the half-open interval between its endpoints. -/
theorem isChain_cover :
    ∀ (l : List (Nat × Nat)) (s t : Nat), isChain s t l →
      ∀ i, (s ≤ i ∧ i < t) ↔ ∃ p ∈ l, p.1 ≤ i ∧ i < p.2 := by
  intro l
  induction l with
  | nil => intro s t h i; subst h; simp
  | cons q rest ih =>
    intro s t h i
    obtain ⟨h1, h2, h3⟩ := h
    have hqt : q.2 ≤ t := isChain_le rest q.2 t h3
    constructor
    · rintro ⟨hsi, hit⟩
      by_cases hlt : i < q.2
      · exact ⟨q, List.mem_cons_self q rest, by omega, hlt⟩
      · obtain ⟨p, hp, hpi⟩ := (ih q.2 t h3 i).1 ⟨by omega, hit⟩
        exact ⟨p, List.mem_cons_of_mem q hp, hpi⟩
    · rintro ⟨p, hp, hpi1, hpi2⟩
      rcases List.mem_cons.1 hp with rfl | hp
      · omega
      · have := (ih q.2 t h3 i).2 ⟨p, hp, hpi1, hpi2⟩
        omega

/-- The ceil blocksize covers the whole range in `num_slices` blocks. -/
theorem ceil_mul_ge (n k : Nat) (hk : 0 < k) : n ≤ k * ((n + k - 1) / k) := by
  have h := Nat.div_add_mod (n + k - 1) k
  have h2 : (n + k - 1) % k < k := Nat.mod_lt _ hk
  generalize hq : k * ((n + k - 1) / k) = X at h ⊢
  generalize hr : (n + k - 1) % k = r at h h2
  omega

/-- Claim C7: for `n > 0` and `k > 0`, `split_in_slices n k` returns
slices that form a contiguous chain from 0 to `n` (each starts where the
previous stopped), are pairwise non-overlapping, cover exactly the
half-open range `[0, n)`, and number at most `k`. -/
theorem split_in_slices_partition (n k : Nat) (hn : 0 < n) (hk : 0 < k) :
    isChain 0 n (split_in_slices n k) ∧
    (split_in_slices n k).Pairwise (fun p q => p.2 ≤ q.1) ∧
    (∀ i, i < n ↔ ∃ p ∈ split_in_slices n k, p.1 ≤ i ∧ i < p.2) ∧
    (split_in_slices n k).length ≤ k := by
  have hbs0 : (n + k - 1) / k ≠ 0 := by
    intro h0
    have := (Nat.div_eq_zero_iff hk).1 h0
    omega
  have hfuel : n ≤ 0 + n * ((n + k - 1) / k) :=
    by simpa using Nat.le_mul_of_pos_right n (Nat.pos_of_ne_zero hbs0)
  have hchain : isChain 0 n (split_in_slices n k) :=
    sisGo_chain n _ hbs0 n 0 hn hfuel
  refine ⟨hchain, isChain_pairwise _ _ _ hchain, fun i => ?_, ?_⟩
  · simpa using isChain_cover _ _ _ hchain i
  · have hlen := sisGo_len n _ hbs0 n 0 hn hfuel
    have hmul : n ≤ k * ((n + k - 1) / k) := ceil_mul_ge n k hk
    have htot : (sisGo n n ((n + k - 1) / k) 0).length * ((n + k - 1) / k)
        < (k + 1) * ((n + k - 1) / k) := by
      rw [Nat.succ_mul]
      generalize hX : (sisGo n n ((n + k - 1) / k) 0).length * ((n + k - 1) / k) = X
        at hlen ⊢
      generalize hY : k * ((n + k - 1) / k) = Y at hmul ⊢
      omega
    have hlt := lt_of_mul_lt_mul_right htot (Nat.zero_le _)
    show (sisGo n n ((n + k - 1) / k) 0).length ≤ k
    omega

/-- Witness for C7: `split_in_slices 5 2` is `[(0,3), (3,5)]`, and the
partition theorem applies to it. -/
theorem split_in_slices_partition_witness :
    0 < 5 ∧ 0 < 2 ∧
    (isChain 0 5 (split_in_slices 5 2) ∧
      (split_in_slices 5 2).Pairwise (fun p q => p.2 ≤ q.1) ∧
      (∀ i, i < 5 ↔ ∃ p ∈ split_in_slices 5 2, p.1 ≤ i ∧ i < p.2) ∧
      (split_in_slices 5 2).length ≤ 2) :=
  ⟨by decide, by decide, split_in_slices_partition 5 2 (by decide) (by decide)⟩

end SliceTheorems

section AccumDictTheorems

/-- Updating a key makes lookup of that key return the new value. -/
theorem adLookup_update_self (e : List (String × PyVal)) (k : String) (v : PyVal) :
    adLookup (adUpdate e k v) k = some v := by
  induction e with
  | nil => simp [adUpdate, adLookup]
  | cons p rest ih =>
    obtain ⟨k₁, v₁⟩ := p
    by_cases h : k = k₁
    · subst h; simp [adUpdate, adLookup]
    · simp [adUpdate, adLookup, h, ih]

/-- Updating one key leaves lookup of any other key unchanged. -/
theorem adLookup_update_ne (e : List (String × PyVal)) (k k' : String) (v : PyVal)
    (h : k' ≠ k) : adLookup (adUpdate e k v) k' = adLookup e k' := by
  induction e with
  | nil => simp [adUpdate, adLookup, h]
  | cons p rest ih =>
    obtain ⟨k₁, v₁⟩ := p
    by_cases h1 : k = k₁
    · subst h1; simp [adUpdate, adLookup, h]
    · by_cases h2 : k' = k₁
      · simp [adUpdate, adLookup, h1, h2]
      · simp [adUpdate, adLookup, h1, h2, ih]

/-- A successful lookup returns one of the stored values. -/
theorem adLookup_mem :
    ∀ (e : List (String × PyVal)) (k : String) (v : PyVal),
      adLookup e k = some v → v ∈ e.map Prod.snd := by
  intro e
  induction e with
  | nil => intro k v h; simp [adLookup] at h
  | cons p rest ih =>
    intro k v h
    obtain ⟨k₁, v₁⟩ := p
    by_cases h1 : k = k₁
    · simp [adLookup, h1] at h
      simp [h]
    · simp [adLookup, h1] at h
      simp [ih k v h]

/-- Lookup of a key that is not among the stored keys fails. -/
theorem adLookup_not_mem :
    ∀ (e : List (String × PyVal)) (k : String),
      k ∉ e.map Prod.fst → adLookup e k = none := by
  intro e
  induction e with
  | nil => intro k _; rfl
  | cons p rest ih =>
    intro k hk
    obtain ⟨k₁, v₁⟩ := p
    have h1 : k ≠ k₁ := by intro he; exact hk (by simp [he])
    have h2 : k ∉ rest.map Prod.fst := fun hm => hk (by simp [hm])
    simp [adLookup, h1, ih k h2]

/-- Writing one store cell leaves every other cell unchanged. -/
theorem get_set_of_ne {β : Type} :
    ∀ (l : List β) (i j : Nat) (a : β), i ≠ j →
      (l.set i a).get? j = l.get? j := by
  intro l
  induction l with
  | nil => intro i j a _; simp
  | cons x xs ih =>
    intro i j a h
    cases i with
    | zero =>
      cases j with
      | zero => exact absurd rfl h
      | succ j => simp
    | succ i =>
      cases j with
      | zero => simp
      | succ j => simpa using ih i j a (by omega)

/-- The `__iadd__` loop only writes store cells that are referenced by a
value of the left-hand dictionary: any cell not referenced under one of
the right-hand keys is preserved (the right-hand keys are distinct, as
they are for a Python dict). -/
theorem iaddGo_frame :
    ∀ (bs : List (String × PyVal)) (s : Store) (d : AccumDict)
      (s' : Store) (d' : AccumDict) (r : Nat),
      (bs.map Prod.fst).Nodup →
      (∀ k, k ∈ bs.map Prod.fst → adLookup d.entries k ≠ some (.vref r)) →
      iaddGo s d bs = .ok (s', d') →
      s'.get? r = s.get? r := by
  intro bs
  induction bs with
  | nil =>
    intro s d s' d' r _ _ h
    simp only [iaddGo] at h
    injection h with h
    injection h with h1 h2
    rw [h1]
  | cons kv rest ih =>
    obtain ⟨k₀, v₀⟩ := kv
    intro s d s' d' r hnd hsafe h
    have hnd' : (k₀ ∉ rest.map Prod.fst) ∧ (rest.map Prod.fst).Nodup := by
      simpa using hnd
    cases hl : adLookup d.entries k₀ with
    | none =>
      simp only [iaddGo, hl] at h
      refine ih s _ s' d' r hnd'.2 ?_ h
      intro k hk
      have hkne : k ≠ k₀ := fun he => hnd'.1 (he ▸ hk)
      show adLookup (adUpdate d.entries k₀ v₀) k ≠ some (.vref r)
      rw [adLookup_update_ne _ _ _ _ hkne]
      exact hsafe k (by simp [hk])
    | some cur =>
      cases v₀ with
      | vint i =>
        cases cur with
        | vint j =>
          simp only [iaddGo, hl] at h
          refine ih s _ s' d' r hnd'.2 ?_ h
          intro k hk
          show adLookup (adUpdate d.entries k₀ (.vint (j + i))) k ≠ some (.vref r)
          by_cases hkk : k = k₀
          · subst hkk; rw [adLookup_update_self]; simp
          · rw [adLookup_update_ne _ _ _ _ hkk]; exact hsafe k (by simp [hk])
        | vref ra =>
          simp only [iaddGo, hl] at h
          exact Except.noConfusion h
      | vref rb =>
        cases cur with
        | vint j =>
          simp only [iaddGo, hl] at h
          exact Except.noConfusion h
        | vref ra =>
          have hra : ra ≠ r := by
            intro he
            exact hsafe k₀ (by simp) (by rw [hl, he])
          cases hga : s.get? ra with
          | none =>
            simp only [iaddGo, hl, hga] at h
            exact Except.noConfusion h
          | some la =>
            cases hgb : s.get? rb with
            | none =>
              simp only [iaddGo, hl, hga, hgb] at h
              exact Except.noConfusion h
            | some lb =>
              simp only [iaddGo, hl, hga, hgb] at h
              have hrec := ih (s.set ra (la ++ lb)) d s' d' r hnd'.2
                (fun k hk => hsafe k (by simp [hk])) h
              rw [hrec, get_set_of_ne _ _ _ _ hra]

/-- Claim C4 as amended: `a + b` evaluates `__iadd__` on a shallow copy
of `a`, so `b`'s own entry list and every store cell not referenced by a
value of `a` - in particular `b`'s lists, unless aliased with one of
`a`'s - are left unchanged; the counterexample shows that a list value of
`a` under a key shared with `b` is extended in place, so `a`'s reachable
values are not preserved. -/
theorem addAD_frame (s : Store) (a : AccumDict) (bs : List (String × PyVal))
    (s' : Store) (d' : AccumDict) (r : Nat)
    (hnd : (bs.map Prod.fst).Nodup)
    (hr : PyVal.vref r ∉ a.entries.map Prod.snd)
    (h : addAD s a bs = .ok (s', d')) :
    s'.get? r = s.get? r := by
  refine iaddGo_frame bs s ⟨a.entries, none⟩ s' d' r hnd ?_ h
  intro k _ hk
  exact hr (adLookup_mem a.entries k _ hk)

/-- Witness for the amended C4: adding `{x: 2, y: [2]}` to an `AccumDict`
`{x: 1}` leaves the store cell 0 (reachable only from the right-hand
side) untouched. -/
theorem addAD_frame_witness :
    (([("x", PyVal.vint 2), ("y", PyVal.vref 0)].map Prod.fst).Nodup) ∧
    PyVal.vref 0 ∉ [("x", PyVal.vint 1)].map Prod.snd ∧
    (([[5]] : Store).get? 0 = ([[5]] : Store).get? 0) :=
  ⟨by decide, by decide,
    addAD_frame [[5]] ⟨[("x", PyVal.vint 1)], none⟩
      [("x", PyVal.vint 2), ("y", PyVal.vref 0)] [[5]]
      ⟨[("x", PyVal.vint 3), ("y", PyVal.vref 0)], none⟩ 0
      (by decide) (by decide) (by decide)⟩

/-- Counterexample to claim C4: with the store `[[1], [2]]`, adding
`b = {k: [2]}` (cell 1) to `a = {k: [1]}` (cell 0) evaluates `a + b` by
extending cell 0 in place: the list reachable from `a` under `k` changes
from `[1]` to `[1, 2]`, so `a + b` does not leave the operands' values
unchanged. -/
theorem addAD_mutates_left :
    addAD [[1], [2]] ⟨[("k", PyVal.vref 0)], none⟩ [("k", PyVal.vref 1)] =
      .ok ([[1, 2], [2]], ⟨[("k", PyVal.vref 0)], none⟩) ∧
    adLookup [("k", PyVal.vref 0)] "k" = some (PyVal.vref 0) ∧
    ([[1, 2], [2]] : Store).get? 0 ≠ ([[1], [2]] : Store).get? 0 :=
  ⟨rfl, rfl, by decide⟩

/-- A `MergeSpec` transfers along pointwise-equal lookups of its first
two entry lists. -/
theorem MergeSpec_of_eq (a₁ a₂ bs₁ bs₂ e : List (String × PyVal)) (k : String)
    (hA : adLookup a₁ k = adLookup a₂ k) (hB : adLookup bs₁ k = adLookup bs₂ k)
    (h : MergeSpec a₁ bs₁ e k) : MergeSpec a₂ bs₂ e k := by
  obtain ⟨c1, c2, c3, c4⟩ := h
  refine ⟨?_, ?_, ?_, ?_⟩
  · intro x y hx hy; exact c1 x y (hA.trans hx) (hB.trans hy)
  · intro x hx hy; exact c2 x (hA.trans hx) (hB.trans hy)
  · intro y hx hy; exact c3 y (hA.trans hx) (hB.trans hy)
  · intro hx hy; exact c4 (hA.trans hx) (hB.trans hy)

/-- The `__isub__` loop of an `AccumDict` without an accumulator
template realizes the pointwise merge `MergeSpec`: both keys present
subtract, a key only on the left keeps its value, a key only on the
right is inserted verbatim; the store is untouched. -/
theorem isubGo_merge :
    ∀ (bs : List (String × PyVal)) (s : Store) (d : AccumDict)
      (s' : Store) (d' : AccumDict),
      d.accum = none → (bs.map Prod.fst).Nodup →
      isubGo s d bs = .ok (s', d') →
      s' = s ∧ d'.accum = none ∧ ∀ k, MergeSpec d.entries bs d'.entries k := by
  intro bs
  induction bs with
  | nil =>
    intro s d s' d' ha _ h
    simp only [isubGo] at h
    injection h with h
    injection h with h1 h2
    subst h1; subst h2
    refine ⟨rfl, ha, fun k => ⟨?_, ?_, ?_, ?_⟩⟩
    · intro x y _ hy; simp [adLookup] at hy
    · intro x hx _; exact hx
    · intro y _ hy; simp [adLookup] at hy
    · intro hx _; exact hx
  | cons kv rest ih =>
    obtain ⟨k₀, v₀⟩ := kv
    intro s d s' d' ha hnd h
    have hnd' : (k₀ ∉ rest.map Prod.fst) ∧ (rest.map Prod.fst).Nodup := by
      simpa using hnd
    cases hl : adLookup d.entries k₀ with
    | some x =>
      simp only [isubGo, getItemAD, hl] at h
      cases hps : pySub x v₀ with
      | error e => rw [hps] at h; simp at h
      | ok w =>
        rw [hps] at h
        dsimp only at h
        obtain ⟨hs, hacc, hmerge⟩ :=
          ih s ⟨adUpdate d.entries k₀ w, d.accum⟩ s' d' ha hnd'.2 h
        refine ⟨hs, hacc, fun k => ?_⟩
        by_cases hkk : k = k₀
        · subst hkk
          have hbs : adLookup ((k, v₀) :: rest) k = some v₀ := by simp [adLookup]
          have hd' : adLookup d'.entries k = some w :=
            (hmerge k).2.1 w (adLookup_update_self _ _ _)
              (adLookup_not_mem rest k hnd'.1)
          refine ⟨?_, ?_, ?_, ?_⟩
          · intro x' y' hx' hy'
            rw [hl] at hx'; injection hx' with hx'; subst hx'
            rw [hbs] at hy'; injection hy' with hy'; subst hy'
            exact ⟨w, hps, hd'⟩
          · intro x' _ hbs'; rw [hbs] at hbs'; exact Option.noConfusion hbs'
          · intro y' ha' _; rw [hl] at ha'; exact Option.noConfusion ha'
          · intro ha' _; rw [hl] at ha'; exact Option.noConfusion ha'
        · refine MergeSpec_of_eq (adUpdate d.entries k₀ w) d.entries rest
            ((k₀, v₀) :: rest) d'.entries k
            (adLookup_update_ne d.entries k₀ k w hkk) ?_ (hmerge k)
          simp [adLookup, hkk]
    | none =>
      simp only [isubGo, getItemAD, hl, ha] at h
      rw [if_pos trivial] at h
      obtain ⟨hs, hacc, hmerge⟩ :=
        ih s ⟨adUpdate d.entries k₀ v₀, none⟩ s' d' rfl hnd'.2 h
      refine ⟨hs, hacc, fun k => ?_⟩
      by_cases hkk : k = k₀
      · subst hkk
        have hbs : adLookup ((k, v₀) :: rest) k = some v₀ := by simp [adLookup]
        have hd' : adLookup d'.entries k = some v₀ :=
          (hmerge k).2.1 v₀ (adLookup_update_self _ _ _)
            (adLookup_not_mem rest k hnd'.1)
        refine ⟨?_, ?_, ?_, ?_⟩
        · intro x' y' hx' _; rw [hl] at hx'; exact Option.noConfusion hx'
        · intro x' hx' _; rw [hl] at hx'; exact Option.noConfusion hx'
        · intro y' _ hy'
          rw [hbs] at hy'; injection hy' with hy'; subst hy'
          exact hd'
        · intro _ hbs'; rw [hbs] at hbs'; exact Option.noConfusion hbs'
      · refine MergeSpec_of_eq (adUpdate d.entries k₀ v₀) d.entries rest
          ((k₀, v₀) :: rest) d'.entries k
          (adLookup_update_ne d.entries k₀ k v₀ hkk) ?_ (hmerge k)
        simp [adLookup, hkk]

/-- Claim C5 as amended: the raw-value insertion holds for the binary
`a - b` with any accumulator state (its internal copy always has
`accum = None`), and for `a -= b` when no accumulator template is
configured: keys in both map to `a[k] - b[k]`, keys only in `a` keep
their value, keys only in `b` are inserted verbatim. With a template
configured, `a -= b` instead materializes the template and subtracts (see
the counterexample). -/
theorem sub_merge (s : Store) (a : AccumDict) (bs : List (String × PyVal))
    (s' : Store) (d' : AccumDict)
    (hnd : (bs.map Prod.fst).Nodup)
    (h : subAD s a bs = .ok (s', d') ∨
      (a.accum = none ∧ isubGo s a bs = .ok (s', d'))) :
    s' = s ∧ d'.accum = none ∧ ∀ k, MergeSpec a.entries bs d'.entries k := by
  rcases h with h | ⟨ha, h⟩
  · exact isubGo_merge bs s ⟨a.entries, none⟩ s' d' rfl hnd h
  · have := isubGo_merge bs s a s' d' ha hnd h
    exact this

/-- Witness for the amended C5: `{a: 10} - {a: 3, b: 7}` yields
`{a: 7, b: 7}` - the shared key subtracts and the key only in `b` is
inserted verbatim. -/
theorem sub_merge_witness :
    (([("a", PyVal.vint 3), ("b", PyVal.vint 7)].map Prod.fst).Nodup) ∧
    (([] : Store) = [] ∧ (⟨[("a", PyVal.vint 7), ("b", PyVal.vint 7)], none⟩ :
        AccumDict).accum = none ∧
      ∀ k, MergeSpec [("a", PyVal.vint 10)]
        [("a", PyVal.vint 3), ("b", PyVal.vint 7)]
        [("a", PyVal.vint 7), ("b", PyVal.vint 7)] k) :=
  ⟨by decide,
    sub_merge [] ⟨[("a", PyVal.vint 10)], none⟩
      [("a", PyVal.vint 3), ("b", PyVal.vint 7)] []
      ⟨[("a", PyVal.vint 7), ("b", PyVal.vint 7)], none⟩
      (by decide) (Or.inl rfl)⟩

/-- Counterexample to claim C5: on an `AccumDict` with accumulator
template `0`, `a -= {k: 5}` binds `k` to `0 - 5 = -5`, not to the raw
value `5`: with a template configured the `KeyError` branch is never
taken, so the "raw value" policy does not hold for all AccumDicts. -/
theorem isub_missing_not_raw :
    isubGo [] ⟨[], some (PyVal.vint 0)⟩ [("k", PyVal.vint 5)] =
      .ok ([], ⟨[("k", PyVal.vint (-5))], some (PyVal.vint 0)⟩) ∧
    adLookup [("k", PyVal.vint (-5))] "k" ≠ some (PyVal.vint 5) :=
  ⟨rfl, by decide⟩

/-- Claim C6: reading a missing key raises `KeyError` exactly when no
accumulator template is configured; with a (mutable) template, the read
stores and returns a deep copy allocated in a fresh cell, so two distinct
missing keys get distinct cells and mutating one key's accumulator never
affects the other's. -/
theorem getItem_missing_spec (s : Store) (d : AccumDict) (k₁ k₂ : String)
    (hk₁ : adLookup d.entries k₁ = none) (hk₂ : adLookup d.entries k₂ = none)
    (hne : k₂ ≠ k₁) :
    (getItemAD s d k₁ = .error ⟨"KeyError", k₁⟩ ↔ d.accum = none) ∧
    (∀ r, d.accum = some (.vref r) →
      ∃ s₁ d₁ s₂ d₂,
        getItemAD s d k₁ = .ok (.vref s.length, s₁, d₁) ∧
        getItemAD s₁ d₁ k₂ = .ok (.vref s₁.length, s₂, d₂) ∧
        adLookup d₁.entries k₁ = some (.vref s.length) ∧
        adLookup d₂.entries k₂ = some (.vref s₁.length) ∧
        s.length ≠ s₁.length ∧
        ∀ xs, (extendCell s₂ s.length xs).get? s₁.length = s₂.get? s₁.length) := by
  constructor
  · constructor
    · intro h
      cases ha : d.accum with
      | none => rfl
      | some a => simp [getItemAD, hk₁, ha] at h
    · intro ha
      simp [getItemAD, hk₁, ha]
  · intro r ha
    have hlen : (s ++ [(s.get? r).getD []]).length = s.length + 1 := by simp
    have hL : adLookup (adUpdate d.entries k₁ (PyVal.vref s.length)) k₂ = none := by
      rw [adLookup_update_ne d.entries k₁ k₂ (PyVal.vref s.length) hne]
      exact hk₂
    refine ⟨s ++ [(s.get? r).getD []],
      ⟨adUpdate d.entries k₁ (.vref s.length), d.accum⟩,
      (s ++ [(s.get? r).getD []]) ++ [((s ++ [(s.get? r).getD []]).get? r).getD []],
      ⟨adUpdate (adUpdate d.entries k₁ (.vref s.length)) k₂
        (.vref (s ++ [(s.get? r).getD []]).length), d.accum⟩,
      ?_, ?_, ?_, ?_, ?_, ?_⟩
    · simp [getItemAD, hk₁, ha, deepcopy]
    · simp [getItemAD, hL, ha, deepcopy]
    · exact adLookup_update_self _ _ _
    · exact adLookup_update_self _ _ _
    · rw [hlen]; omega
    · intro xs
      unfold extendCell
      exact get_set_of_ne _ _ _ _ (by rw [hlen]; omega)

/-- Witness for C6: on the empty store with template `[]` (cell 0), the
reads of the distinct missing keys `a` and `b` materialize distinct
cells, with extension of one preserving the other. -/
theorem getItem_missing_spec_witness :
    adLookup ((⟨[], some (PyVal.vref 0)⟩ : AccumDict)).entries "a" = none ∧
    adLookup ((⟨[], some (PyVal.vref 0)⟩ : AccumDict)).entries "b" = none ∧
    ((getItemAD [] ⟨[], some (PyVal.vref 0)⟩ "a" = .error ⟨"KeyError", "a"⟩ ↔
        (⟨[], some (PyVal.vref 0)⟩ : AccumDict).accum = none) ∧
      (∀ r, (⟨[], some (PyVal.vref 0)⟩ : AccumDict).accum = some (.vref r) →
        ∃ s₁ d₁ s₂ d₂,
          getItemAD [] ⟨[], some (PyVal.vref 0)⟩ "a" =
            .ok (.vref ([] : Store).length, s₁, d₁) ∧
          getItemAD s₁ d₁ "b" = .ok (.vref s₁.length, s₂, d₂) ∧
          adLookup d₁.entries "a" = some (.vref ([] : Store).length) ∧
          adLookup d₂.entries "b" = some (.vref s₁.length) ∧
          ([] : Store).length ≠ s₁.length ∧
          ∀ xs, (extendCell s₂ ([] : Store).length xs).get? s₁.length =
            s₂.get? s₁.length)) :=
  ⟨rfl, rfl,
    getItem_missing_spec [] ⟨[], some (PyVal.vref 0)⟩ "a" "b" rfl rfl (by decide)⟩

end AccumDictTheorems

section FilterTheorems

variable {W : Type} [LinearOrderedCommRing W]

/-- Claim C10: when the `idl` flag is set and the enlarged bounding box
of a source has `min_lon = 0` or `max_lon = 0` exactly, none of the four
strict sign cases of `get_affected_box` matches, so it returns `None`,
and the rtree-mode index query of `__call__` then operates on `None`
rather than a box (raising inside the rtree library). -/
theorem getAffectedBox_zero_lon_none (f : SFModel W) (src : SourceM W)
    (hidl : f.idl = true)
    (h : (src.boundingBox (f.distFor src.trt)).minLon = 0 ∨
      (src.boundingBox (f.distFor src.trt)).maxLon = 0) :
    getAffectedBox f src = none ∧
    (f.useRtree = true → ∀ sites, callStep f src sites =
      .error ⟨"TypeError", "object of type NoneType has no coordinates"⟩) := by
  have hbox : getAffectedBox f src = none := by
    rcases h with h0 | h0 <;> simp [getAffectedBox, hidl, h0]
  exact ⟨hbox, fun hrt sites => by
    simp [callStep, hrt, hbox, indexIntersection]⟩

/-- Witness for C10: the concrete filter and source with
`min_lon = 0` fall through to `None` and the index query raises. -/
theorem getAffectedBox_zero_lon_none_witness :
    exFilter.idl = true ∧
    ((exSource.boundingBox (exFilter.distFor exSource.trt)).minLon = 0 ∨
      (exSource.boundingBox (exFilter.distFor exSource.trt)).maxLon = 0) ∧
    (getAffectedBox exFilter exSource = none ∧
      (exFilter.useRtree = true → ∀ sites, callStep exFilter exSource sites =
        .error ⟨"TypeError", "object of type NoneType has no coordinates"⟩)) :=
  ⟨rfl, Or.inl rfl,
    getAffectedBox_zero_lon_none exFilter exSource rfl (Or.inl rfl)⟩

/-- Counterexample to claim C8: in rtree mode the per-source processing
is not wrapped in `context(src)` - the concrete source `exSource` (whose
affected box falls through to `None`) makes `__call__` raise the raw
rtree `TypeError` unchanged, while enriching that error would have
changed it; so not every exception raised while processing a candidate is
re-raised with the candidate's identifier in the message. -/
theorem callStep_rtree_unenriched :
    callStep exFilter exSource [] =
      .error ⟨"TypeError", "object of type NoneType has no coordinates"⟩ ∧
    ¬ ∃ m, "object of type NoneType has no coordinates" =
      enrich exSource.source_id m := by
  refine ⟨rfl, ?_⟩
  rintro ⟨m, hm⟩
  have hlen := congrArg String.length hm
  rw [show String.length "object of type NoneType has no coordinates" = 42
    by decide] at hlen
  rw [show exSource.source_id = "42" from rfl, enrich, String.length_append,
    String.length_append, String.length_append] at hlen
  rw [show String.length "An error occurred with source id=" = 33 by decide] at hlen
  rw [show String.length "42" = 2 by decide] at hlen
  rw [show String.length ". Error: " = 9 by decide] at hlen
  omega

/-- Claim C8 as amended: only in unindexed distance mode, and only for
exceptions raised by `filter_sites_by_distance_to_source` (the one call
wrapped in `context(src)`), is the exception re-raised with its type
preserved and its message enriched with the candidate's source id;
rtree-mode exceptions propagate unchanged (see the counterexample). -/
theorem callStep_distance_enriched (f : SFModel W) (src : SourceM W)
    (sites : List Nat) (h1 : f.useRtree = false) (h2 : f.hasDist = true)
    (mm : W × W) (h3 : src.minMaxMag = .ok mm) (e : PyError)
    (h4 : src.filterSites (f.distAt src.trt mm.2) sites = .error e) :
    callStep f src sites = .error ⟨e.etype, enrich src.source_id e.msg⟩ := by
  simp [callStep, h1, h2, h3, h4, contextRun]

/-- Witness for the amended C8: the concrete distance-mode filter wraps
the `ValueError` of `exSourceFail` with the source id `7`. -/
theorem callStep_distance_enriched_witness :
    exFilterDist.useRtree = false ∧ exFilterDist.hasDist = true ∧
    exSourceFail.minMaxMag = .ok ((4 : ℤ), 8) ∧
    exSourceFail.filterSites (exFilterDist.distAt exSourceFail.trt 8) [] =
      .error ⟨"ValueError", "bad geometry"⟩ ∧
    callStep exFilterDist exSourceFail [] =
      .error ⟨"ValueError", enrich exSourceFail.source_id "bad geometry"⟩ :=
  ⟨rfl, rfl, rfl, rfl,
    callStep_distance_enriched exFilterDist exSourceFail [] rfl rfl (4, 8) rfl
      ⟨"ValueError", "bad geometry"⟩ rfl⟩

/-- Counterexample to claim C2: a site at the corner `(1, 1)` of the
threshold-enlarged box of a degenerate source at the origin with
threshold 1 survives indexed (bounding-box) filtering but not unindexed
distance filtering (its squared distance is 2 > 1), so the two modes do
not yield the same surviving candidate set. -/
theorem filter_modes_differ :
    survivesIndexed (⟨0, 0, 0, 0⟩ : BBox ℤ) 1 [(1, 1)] = true ∧
    survivesDistance (⟨0, 0, 0, 0⟩ : BBox ℤ) 1 [(1, 1)] = false :=
  ⟨by decide, by decide⟩

/-- Squares are monotone on nonnegative values, stated contrapositively. -/
theorem le_of_mul_self_le_mul_self (d u : W) (hd : 0 ≤ d) (hu : 0 ≤ u)
    (h : u * u ≤ d * d) : u ≤ d := by
  by_contra hcon
  push_neg at hcon
  exact absurd h (not_le.2 (mul_lt_mul'' hcon hcon hd hd))

/-- Claim C2 as amended: indexed mode yields a superset of unindexed
distance mode - every candidate surviving the true distance filter also
survives the enlarged-bounding-box filter, but not conversely (see the
counterexample); the index is a conservative relaxation, not an
equivalent filter. -/
theorem indexed_mode_superset (b : BBox W) (d : W) (sites : List (W × W))
    (hd : 0 ≤ d) (h : survivesDistance b d sites = true) :
    survivesIndexed b d sites = true := by
  rw [survivesDistance, List.any_eq_true] at h
  obtain ⟨p, hp, hle⟩ := h
  rw [decide_eq_true_iff] at hle
  have hsum : max 0 (max (b.minLon - p.1) (p.1 - b.maxLon)) *
        max 0 (max (b.minLon - p.1) (p.1 - b.maxLon)) +
      max 0 (max (b.minLat - p.2) (p.2 - b.maxLat)) *
        max 0 (max (b.minLat - p.2) (p.2 - b.maxLat)) ≤ d * d := by
    simpa [rectDistSq] using hle
  have hdx : max 0 (max (b.minLon - p.1) (p.1 - b.maxLon)) ≤ d := by
    refine le_of_mul_self_le_mul_self d _ hd (le_max_left _ _) ?_
    calc max 0 (max (b.minLon - p.1) (p.1 - b.maxLon)) *
          max 0 (max (b.minLon - p.1) (p.1 - b.maxLon))
        ≤ max 0 (max (b.minLon - p.1) (p.1 - b.maxLon)) *
            max 0 (max (b.minLon - p.1) (p.1 - b.maxLon)) +
          max 0 (max (b.minLat - p.2) (p.2 - b.maxLat)) *
            max 0 (max (b.minLat - p.2) (p.2 - b.maxLat)) :=
          le_add_of_nonneg_right (mul_self_nonneg _)
      _ ≤ d * d := hsum
  have hdy : max 0 (max (b.minLat - p.2) (p.2 - b.maxLat)) ≤ d := by
    refine le_of_mul_self_le_mul_self d _ hd (le_max_left _ _) ?_
    calc max 0 (max (b.minLat - p.2) (p.2 - b.maxLat)) *
          max 0 (max (b.minLat - p.2) (p.2 - b.maxLat))
        ≤ max 0 (max (b.minLon - p.1) (p.1 - b.maxLon)) *
            max 0 (max (b.minLon - p.1) (p.1 - b.maxLon)) +
          max 0 (max (b.minLat - p.2) (p.2 - b.maxLat)) *
            max 0 (max (b.minLat - p.2) (p.2 - b.maxLat)) :=
          le_add_of_nonneg_left (mul_self_nonneg _)
      _ ≤ d * d := hsum
  have e1 : b.minLon - p.1 ≤ d :=
    le_trans (le_trans (le_max_left _ _) (le_max_right 0 _)) hdx
  have e2 : p.1 - b.maxLon ≤ d :=
    le_trans (le_trans (le_max_right _ _) (le_max_right 0 _)) hdx
  have e3 : b.minLat - p.2 ≤ d :=
    le_trans (le_trans (le_max_left _ _) (le_max_right 0 _)) hdy
  have e4 : p.2 - b.maxLat ≤ d :=
    le_trans (le_trans (le_max_right _ _) (le_max_right 0 _)) hdy
  rw [survivesIndexed, List.any_eq_true]
  refine ⟨p, hp, ?_⟩
  simp only [inBox, enlargedBox, Bool.and_eq_true, decide_eq_true_iff]
  exact ⟨⟨⟨by linarith, by linarith⟩, by linarith⟩, by linarith⟩

/-- Witness for the amended C2: a site within the threshold distance of
the source box survives distance filtering, hence indexed filtering. -/
theorem indexed_mode_superset_witness :
    (0 : ℤ) ≤ 1 ∧
    survivesDistance (⟨0, 0, 0, 0⟩ : BBox ℤ) 1 [(0, 1)] = true ∧
    survivesIndexed (⟨0, 0, 0, 0⟩ : BBox ℤ) 1 [(0, 1)] = true :=
  ⟨by decide, by decide,
    indexed_mode_superset (⟨0, 0, 0, 0⟩ : BBox ℤ) 1 [(0, 1)] (by decide) (by decide)⟩

end FilterTheorems
